import Mathlib

/-!
Verification development for the instant-commit extension
(`src/extension.ts`, current revision): a shallow embedding of its
data model (`FileChange`, the git change pools), its message synthesizer
(`generateMessage` with the inner `findLongestPathPrefix` loop and
`statusToString` table), and its commit coordination pipeline
(`instantCommit`, `instantCommitFiles`, `_instantCommitGroups`),
together with theorems settling the specification's claims.

Conventions of the embedding:
* JavaScript `undefined` is `Option.none`; JavaScript truthiness of the
  accumulator variables is modelled explicitly (`undefined`, the empty
  string and the numeric enum value `0` are falsy).
* The `while` loop of `findLongestPathPrefix` does not terminate on all
  string pairs, so it is embedded fuel-indexed: the outer `Option` is
  `none` when the fuel runs out, the inner `Option` is the function's
  own `string | undefined` result.
* Machine side effects (the git extension's `add`, `commit`,
  `showErrorMessage`, `showInformationMessage` calls) are recorded in
  explicit trace structures.
-/

/-- The `Status` enumeration of the vscode git extension API
(`src/api/git.d.ts`, a vendored copy of the upstream declaration file).
It is a TypeScript `const enum`, so each variant is a number; the
numbering (starting at `INDEX_MODIFIED = 0`) matters because the source
tests enum values for truthiness. -/
inductive GitStatus where
  | INDEX_MODIFIED
  | INDEX_ADDED
  | INDEX_DELETED
  | INDEX_RENAMED
  | INDEX_COPIED
  | MODIFIED
  | DELETED
  | UNTRACKED
  | IGNORED
  | INTENT_TO_ADD
  | INTENT_TO_RENAME
  | TYPE_CHANGED
  | ADDED_BY_US
  | ADDED_BY_THEM
  | DELETED_BY_US
  | DELETED_BY_THEM
  | BOTH_ADDED
  | BOTH_DELETED
  | BOTH_MODIFIED
deriving DecidableEq, Repr

/-- The numeric value of each `Status` variant (TypeScript `const enum`
numbering, in declaration order). -/
def GitStatus.toNat : GitStatus → Nat
  | .INDEX_MODIFIED => 0
  | .INDEX_ADDED => 1
  | .INDEX_DELETED => 2
  | .INDEX_RENAMED => 3
  | .INDEX_COPIED => 4
  | .MODIFIED => 5
  | .DELETED => 6
  | .UNTRACKED => 7
  | .IGNORED => 8
  | .INTENT_TO_ADD => 9
  | .INTENT_TO_RENAME => 10
  | .TYPE_CHANGED => 11
  | .ADDED_BY_US => 12
  | .ADDED_BY_THEM => 13
  | .DELETED_BY_US => 14
  | .DELETED_BY_THEM => 15
  | .BOTH_ADDED => 16
  | .BOTH_DELETED => 17
  | .BOTH_MODIFIED => 18

/-- JavaScript truthiness of a `Status | undefined` value: `undefined`
is falsy, and so is the enum value whose number is `0`
(`INDEX_MODIFIED`). -/
def statusTruthy : Option GitStatus → Bool
  | none => false
  | some st => st.toNat != 0

/-- A `Change` record of the git extension API, as consumed by the
source: it reads `change.uri.path` (modelled as the field `uriPath`)
and `change.status`. -/
structure GitChange where
  uriPath : String
  status : GitStatus
deriving DecidableEq, Repr

/-- JavaScript `Array.prototype.join(sep)`. -/
def joinSep (sep : String) : List String → String
  | [] => ""
  | [s] => s
  | s :: rest => s ++ sep ++ joinSep sep rest

/-- JavaScript `String.prototype.split(sep)` for a one-character
separator, at the character-list level. -/
def splitChar (sep : Char) : List Char → List (List Char)
  | [] => [[]]
  | c :: cs =>
    if c = sep then [] :: splitChar sep cs
    else
      match splitChar sep cs with
      | [] => [[c]]
      | l :: ls => (c :: l) :: ls

/-- The newline-separated lines of a string (JavaScript
`s.split('\n')`). -/
def linesOf (s : String) : List String :=
  (splitChar '\n' s.data).map String.mk

/-- `s.split('\n', 1)[0]`: everything before the first newline. -/
def firstLine (s : String) : String :=
  (linesOf s).headD ""

/-- Node's `path.posix.dirname`, transcribed from the Node source: scan
from the right over indices `≥ 1`, skip trailing separators, skip the
last component, and cut just before the separator found; with the
special cases for rootless input (`"."`), a bare root (`"/"`), and a
root-adjacent cut (`"//"`). -/
def dirname (s : String) : String :=
  match s.data with
  | [] => "."
  | c0 :: rest =>
    let hasRoot := c0 = '/'
    let r := (rest.reverse.dropWhile (fun c => c = '/')).dropWhile (fun c => c ≠ '/')
    if r.length = 0 then
      if hasRoot then "/" else "."
    else if hasRoot ∧ r.length = 1 then "//"
    else String.mk ((c0 :: rest).take r.length)

/-- The truncation step used by the `findLongestPathPrefix` loop:
`` `${path.dirname(x)}/` ``. -/
def dirnameSlash (s : String) : String :=
  dirname s ++ "/"

/-- The `while` loop of `findLongestPathPrefix` (in `generateMessage`),
fuel-indexed because it does not terminate on every string pair.
`none` means the fuel ran out; `some none` is the loop's `undefined`
result; `some (some p)` is a found common prefix. -/
def findLongestPathPrefixFuel : Nat → String → String → Option (Option String)
  | 0, _, _ => none
  | n + 1, a, b =>
    if a.length > 0 ∧ b.length > 0 then
      if a = "./" ∨ b = "./" then some none
      else if a = b then some (some a)
      else if a.length > b.length then findLongestPathPrefixFuel n (dirnameSlash a) b
      else findLongestPathPrefixFuel n a (dirnameSlash b)
    else some none

/-- `findLongestPathPrefix a b` evaluates to `r` (for some amount of
fuel; deterministic by `findLongestPathPrefixFuel_deterministic`). -/
def FlppEval (a b : String) (r : Option String) : Prop :=
  ∃ n, findLongestPathPrefixFuel n a b = some r

/-- Node's `path.relative` (posix), for the already-normalized absolute
inputs the extension passes (`repository.rootUri.path` and
`resourceUri.path` / `change.uri.path`): drop the common leading
segments, climb with `..` for what remains of the source, then descend
into the target. The cwd-dependent resolution of non-absolute inputs
is not modelled. -/
def splitSegments (s : String) : List String :=
  ((splitChar '/' s.data).map String.mk).filter (fun x => x ≠ "")

/-- Segment normalization of `path.posix.resolve`: drop `"."`, let
`".."` pop the previous segment. -/
def normalizeSegs (segs : List String) : List String :=
  segs.foldl (fun acc seg =>
    if seg = "." then acc
    else if seg = ".." then acc.dropLast
    else acc ++ [seg]) []

/-- Length of the common leading run of two segment lists. -/
def commonPrefixLen : List String → List String → Nat
  | x :: xs, y :: ys => if x = y then commonPrefixLen xs ys + 1 else 0
  | _, _ => 0

/-- `path.relative(src, dst)` for absolute posix inputs (see
`splitSegments`). -/
def pathRelative (src dst : String) : String :=
  if src = dst then ""
  else
    let f := normalizeSegs (splitSegments src)
    let t := normalizeSegs (splitSegments dst)
    let k := commonPrefixLen f t
    joinSep "/" (List.replicate (f.length - k) ".." ++ t.drop k)

/-- The `FileChange` class: absolute path, root-relative path with
separators normalized to forward slashes, optional status, optional
back-reference to the source change record. -/
structure FileChange where
  path : String
  relativePath : String
  status : Option GitStatus
  change : Option GitChange
deriving DecidableEq, Repr

/-- The `FileChange` constructor, branch for a `GitChange` argument:
`path`/`status` are taken from the record and `relativePath` is
`path.relative(rootPath, this.path).replace(/\\/g, '/')`. -/
def FileChange.ofChange (c : GitChange) (rootPath : String) : FileChange :=
  { path := c.uriPath
    relativePath := String.mk ((pathRelative rootPath c.uriPath).data.map
      (fun ch => if ch = '\\' then '/' else ch))
    status := some c.status
    change := some c }

/-- The `FileChange` constructor, branch for a plain string path (the
optional `status` parameter defaults to `undefined` at the call sites
modelled here). -/
def FileChange.ofPath (p rootPath : String) (status : Option GitStatus) : FileChange :=
  { path := p
    relativePath := String.mk ((pathRelative rootPath p).data.map
      (fun ch => if ch = '\\' then '/' else ch))
    status := status
    change := none }

/-- The `statusToString` table inside `generateMessage`. -/
def statusToString : Option GitStatus → String
  | some GitStatus.INDEX_ADDED => "Add"
  | some GitStatus.UNTRACKED => "Add"
  | some GitStatus.INDEX_DELETED => "Delete"
  | some GitStatus.DELETED => "Delete"
  | some GitStatus.INDEX_RENAMED => "Rename"
  | some GitStatus.INDEX_COPIED => "Copy"
  | _ => "Update"

/-- One per-file body line: `` `${statusToString(fileChange.status)} ${fileChange.relativePath}` ``. -/
def gmLine (fc : FileChange) : String :=
  statusToString fc.status ++ " " ++ fc.relativePath

/-- The loop state of `generateMessage`: the two one-way accumulators
and the collected lines. -/
structure GMState where
  commonPath : Option String
  commonStatus : Option GitStatus
  lines : List String
deriving DecidableEq, Repr

/-- The common-path update of one `generateMessage` iteration: the
source's `commonPath && commonPath !== fileChange.path` guard (note:
compared against the absolute `path`, not `relativePath`), with
JavaScript truthiness for the accumulated string, then the
`findLongestPathPrefix` call. Fuel-indexed through that call. -/
def cpStepFuel (n : Nat) (cp : Option String) (fc : FileChange) : Option (Option String) :=
  match cp with
  | none => some none
  | some cp =>
    if cp ≠ "" ∧ cp ≠ fc.path then findLongestPathPrefixFuel n cp fc.relativePath
    else some (some cp)

/-- The common-status update of one `generateMessage` iteration:
`commonStatus && commonStatus !== fileChange.status` (enum-number
truthiness) resets the accumulator to `undefined`. -/
def csStep (cs : Option GitStatus) (s : Option GitStatus) : Option GitStatus :=
  if statusTruthy cs ∧ cs ≠ s then none else cs

/-- One iteration of the `generateMessage` loop: update the two
accumulators and push the per-file line. -/
def gmStep (n : Nat) (fc : FileChange) (st : GMState) : Option GMState :=
  match cpStepFuel n st.commonPath fc with
  | none => none
  | some cp1 =>
    some { commonPath := cp1
           commonStatus := csStep st.commonStatus fc.status
           lines := st.lines ++ [gmLine fc] }

/-- The `for` loop of `generateMessage` over the whole input list. -/
def gmFoldAux (n : Nat) : List FileChange → GMState → Option GMState
  | [], st => some st
  | fc :: rest, st =>
    match gmStep n fc st with
    | none => none
    | some st1 => gmFoldAux n rest st1

/-- The summary line built when more than one file is present:
`` `${statusToString(commonStatus)} ${fileChanges.length} files` ``,
extended with `` ` from ${commonPath}` `` when the accumulated common
path is truthy. -/
def gmSummary (cs : Option GitStatus) (cp : Option String) (len : Nat) : String :=
  statusToString cs ++ " " ++ toString len ++ " files" ++
    (match cp with
     | some p => if p ≠ "" then " from " ++ p else ""
     | none => "")

/-- The accumulator seeds of `generateMessage`:
`fileChanges.length >= 1 ? fileChanges[0].relativePath : undefined` and
`fileChanges.length >= 1 ? fileChanges[0].status : undefined`. -/
def gmInit (fileChanges : List FileChange) : GMState :=
  { commonPath := fileChanges.head?.map FileChange.relativePath
    commonStatus := match fileChanges.head? with
                    | some fc => fc.status
                    | none => none
    lines := [] }

/-- `generateMessage`, fuel-indexed through the inner
`findLongestPathPrefix` calls: seed the accumulators from the first
entry, run the loop, prepend the summary and a blank separator when
more than one file is present, and join with newlines. -/
def generateMessage (n : Nat) (fileChanges : List FileChange) : Option String :=
  match gmFoldAux n fileChanges (gmInit fileChanges) with
  | none => none
  | some st =>
    let allLines :=
      if fileChanges.length > 1 then
        gmSummary st.commonStatus st.commonPath fileChanges.length :: "" :: st.lines
      else st.lines
    some (joinSep "\n" allLines)

/-- `generateMessage fcs` evaluates to `s` (for some amount of fuel;
deterministic by `generateMessage_deterministic`). -/
def GMEval (fileChanges : List FileChange) (s : String) : Prop :=
  ∃ n, generateMessage n fileChanges = some s

/-- A snapshot of the repository's two change pools, as returned by one
`diffIndexWithHEAD()` / `diffWithHEAD()` read each. -/
structure RepoState where
  staged : List GitChange
  unstaged : List GitChange
deriving DecidableEq, Repr

/-- The effect of `repository.add(paths)` on the pools. Modelled from
the spec's RepositoryAccess contract (the git extension's `Repository`
is an external collaborator): staging a path moves its working-tree
change record into the index. A path matching no record stages
nothing. -/
def repoAdd (paths : List String) (st : RepoState) : RepoState :=
  { staged := st.staged ++ st.unstaged.filter (fun c => paths.contains c.uriPath)
    unstaged := st.unstaged.filter (fun c => ¬ paths.contains c.uriPath) }

/-- The observable calls made by one `instantCommit` invocation:
each `repository.add` call's path list, each `repository.commit` call's
message, how many times the staged pool was re-queried between the add
and the commit, and the information messages shown. -/
structure CommitTrace where
  addCalls : List (List String)
  commitCalls : List String
  stagedQueryCount : Nat
  infoMessages : List String
deriving DecidableEq, Repr

/-- `instantCommit(repository, fileChanges)`: generate the commit
message from the given (pre-stage) `FileChange` list, filter out the
entries whose status is `INDEX_DELETED`, call `repository.add` with the
remaining absolute paths (unconditionally), call `repository.commit`
with the message, and show the success message built from the message's
first line. Returns the repository state after the add together with
the call trace; `none` when `generateMessage` runs out of fuel. -/
def instantCommit (n : Nat) (fileChanges : List FileChange) (st : RepoState) :
    Option (RepoState × CommitTrace) :=
  match generateMessage n fileChanges with
  | none => none
  | some commitMessage =>
    let fileChangesPaths :=
      (fileChanges.filter (fun fc => fc.status ≠ some GitStatus.INDEX_DELETED)).map FileChange.path
    let st1 := repoAdd fileChangesPaths st
    some (st1,
      { addCalls := [fileChangesPaths]
        commitCalls := [commitMessage]
        stagedQueryCount := 0
        infoMessages := ["Instant committed: " ++ firstLine commitMessage] })

/-- Remove the first list entry whose `uriPath` equals `p`
(`Array.prototype.splice` on the first match, as in `popChange`). -/
def removeFirst (p : String) : List GitChange → Option GitChange × List GitChange
  | [] => (none, [])
  | c :: rest =>
    if c.uriPath = p then (some c, rest)
    else
      let r := removeFirst p rest
      (r.1, c :: r.2)

/-- `popChange(path, searchStagedFiles)` inside `instantCommitFiles`:
search (and drain) the staged pool first when asked, then the changed
pool; returns the found record and the two updated pools. -/
def popChange (p : String) (searchStagedFiles : Bool)
    (stagedFiles changedFiles : List GitChange) :
    Option GitChange × List GitChange × List GitChange :=
  if searchStagedFiles then
    match removeFirst p stagedFiles with
    | (some c, staged1) => (some c, staged1, changedFiles)
    | (none, _) =>
      let r := removeFirst p changedFiles
      (r.1, stagedFiles, r.2)
  else
    let r := removeFirst p changedFiles
    (r.1, stagedFiles, r.2)

/-- The resolution loop of `instantCommitFiles`: for each resource URI
path, in order, pop a matching change (staged pool first) and wrap it
as a `FileChange`; fall back to the pathname-only constructor (status
`undefined`) when no record matches. Returns the resolved list and the
drained pools. -/
def resolveByPaths (rootPath : String) (uriPaths : List String)
    (stagedFiles changedFiles : List GitChange) :
    List FileChange × List GitChange × List GitChange :=
  match uriPaths with
  | [] => ([], stagedFiles, changedFiles)
  | p :: rest =>
    let r := popChange p true stagedFiles changedFiles
    let fc :=
      match r.1 with
      | some c => FileChange.ofChange c rootPath
      | none => FileChange.ofPath p rootPath none
    let rec' := resolveByPaths rootPath rest r.2.1 r.2.2
    (fc :: rec'.1, rec'.2)

/-- The user-visible outcome of one pipeline invocation: error
messages, information messages, and the repository mutation calls. -/
structure RunResult where
  errors : List String
  infos : List String
  addCalls : List (List String)
  commitCalls : List String
deriving DecidableEq, Repr

/-- `instantCommitFiles(repository, resourceUris)`: snapshot the two
pools, resolve every URI path, then fail on an empty selection, fail on
a non-empty leftover staged pool, and otherwise run `instantCommit`
(against the repository's unchanged pools — resolution mutated only the
local arrays). `none` when `generateMessage` runs out of fuel. -/
def instantCommitFiles (n : Nat) (rootPath : String) (uriPaths : List String)
    (stagedFiles changedFiles : List GitChange) : Option RunResult :=
  let r := resolveByPaths rootPath uriPaths stagedFiles changedFiles
  let fileChanges := r.1
  let stagedAfter := r.2.1
  if fileChanges.length ≤ 0 then
    some { errors := ["Please select one or more files to instant commit."]
           infos := [], addCalls := [], commitCalls := [] }
  else if stagedAfter.length > 0 then
    some { errors := ["Please clean up your staged files before instant committing."]
           infos := [], addCalls := [], commitCalls := [] }
  else
    match instantCommit n fileChanges { staged := stagedFiles, unstaged := changedFiles } with
    | none => none
    | some (_, tr) =>
      some { errors := [], infos := tr.infoMessages
             addCalls := tr.addCalls, commitCalls := tr.commitCalls }

/-- The loop state of `_instantCommitGroups`: the two (locally drained)
pools, the accumulated `FileChange` list, and the collected
unrecognized group ids. -/
structure GroupState where
  staged : List GitChange
  changed : List GitChange
  fileChanges : List FileChange
  unknownIds : List String
deriving DecidableEq, Repr

/-- One iteration of the `_instantCommitGroups` loop over resource
groups: `'index'` wraps and drains the whole staged pool,
`'workingTree'` wraps and drains the whole changed pool, and any other
id is recorded as unknown. -/
def resolveGroup (rootPath : String) (gid : String) (st : GroupState) : GroupState :=
  if gid = "index" then
    { st with
        fileChanges := st.fileChanges ++ st.staged.map (fun c => FileChange.ofChange c rootPath)
        staged := [] }
  else if gid = "workingTree" then
    { st with
        fileChanges := st.fileChanges ++ st.changed.map (fun c => FileChange.ofChange c rootPath)
        changed := [] }
  else
    { st with unknownIds := st.unknownIds ++ [gid] }

/-- The whole group loop of `_instantCommitGroups`. -/
def groupFold (rootPath : String) (groupIds : List String)
    (stagedFiles changedFiles : List GitChange) : GroupState :=
  groupIds.foldl (fun st gid => resolveGroup rootPath gid st)
    { staged := stagedFiles, changed := changedFiles, fileChanges := [], unknownIds := [] }

/-- `_instantCommitGroups(...resourceGroups)`: snapshot the pools, fold
the group loop, then — in this order — report the unknown-group error
only when no `FileChange` was produced (otherwise report the
empty-selection error when also no id was unknown), fail on leftover
staged entries, and otherwise run `instantCommit`. -/
def instantCommitGroups (n : Nat) (rootPath : String) (groupIds : List String)
    (stagedFiles changedFiles : List GitChange) : Option RunResult :=
  let st := groupFold rootPath groupIds stagedFiles changedFiles
  if st.fileChanges.length ≤ 0 then
    if st.unknownIds.length > 0 then
      some { errors := ["Unknown resource group ids: '" ++ joinSep "', '" st.unknownIds ++ "'"]
             infos := [], addCalls := [], commitCalls := [] }
    else
      some { errors := ["Nothing to instant commit."]
             infos := [], addCalls := [], commitCalls := [] }
  else if st.staged.length > 0 then
    some { errors := ["Please clean up your staged files before instant committing."]
           infos := [], addCalls := [], commitCalls := [] }
  else
    match instantCommit n st.fileChanges { staged := stagedFiles, unstaged := changedFiles } with
    | none => none
    | some (_, tr) =>
      some { errors := [], infos := tr.infoMessages
             addCalls := tr.addCalls, commitCalls := tr.commitCalls }

/-- A string that does not begin with a forward slash. Every
`relativePath` the extension constructs satisfies this (it is produced
by `path.relative` against the repository root), and on such strings
the `findLongestPathPrefix` loop terminates. -/
@[reducible] def NonAbs (s : String) : Prop :=
  s.data.head? ≠ some '/'

/-- `NonAbs` lifted to the `string | undefined` accumulator. -/
@[reducible] def NonAbsOpt : Option String → Prop
  | none => True
  | some s => NonAbs s

/-- A newline-free string. -/
@[reducible] def noNL (s : String) : Prop :=
  ∀ c ∈ s.data, c ≠ '\n'

/-- `noNL` lifted to the `string | undefined` accumulator. -/
@[reducible] def noNLOpt : Option String → Prop
  | none => True
  | some s => noNL s

/-- Scenario record: `a/x.ts`, added (spec §8 scenario). -/
def chgAx : GitChange := { uriPath := "/repo/a/x.ts", status := GitStatus.INDEX_ADDED }

/-- Scenario record: `b/y.ts`, deleted (spec §8 scenario). -/
def chgBy : GitChange := { uriPath := "/repo/b/y.ts", status := GitStatus.INDEX_DELETED }

/-- Scenario `FileChange` for `a/x.ts`. -/
def fcAx : FileChange := FileChange.ofChange chgAx "/repo"

/-- Scenario `FileChange` for `b/y.ts`. -/
def fcBy : FileChange := FileChange.ofChange chgBy "/repo"

/-- A resolution fallback `FileChange` (no matching record, status
`undefined`) for `/r/a.ts`. -/
def fcUnknownA : FileChange := FileChange.ofPath "/r/a.ts" "/r" none

/-- A staged-deletion change record for `/r/d.ts`. -/
def chgDeletedD : GitChange := { uriPath := "/r/d.ts", status := GitStatus.INDEX_DELETED }

/-- The `FileChange` wrapping `chgDeletedD`. -/
def fcDeletedD : FileChange := FileChange.ofChange chgDeletedD "/r"

/-- A staged addition record for `/r/b.ts`. -/
def chgStagedB : GitChange := { uriPath := "/r/b.ts", status := GitStatus.INDEX_ADDED }

theorem stringMk_data (s : String) : String.mk s.data = s := by
  cases s
  rfl

theorem splitChar_ne_nil (sep : Char) (l : List Char) : splitChar sep l ≠ [] := by
  induction l with
  | nil => simp [splitChar]
  | cons c cs ih =>
    by_cases h : c = sep
    · simp [splitChar, h]
    · simp only [splitChar, h, if_false]
      cases hs : splitChar sep cs with
      | nil => simp
      | cons x xs => simp

theorem splitChar_of_not_mem {sep : Char} {l : List Char} (h : ∀ c ∈ l, c ≠ sep) :
    splitChar sep l = [l] := by
  induction l with
  | nil => rfl
  | cons c cs ih =>
    have hc : c ≠ sep := h c (by simp)
    have ih' := ih (fun x hx => h x (by simp [hx]))
    simp [splitChar, hc, ih']

theorem splitChar_append_cons (sep : Char) {l₁ : List Char} (l₂ : List Char)
    (h : ∀ c ∈ l₁, c ≠ sep) :
    splitChar sep (l₁ ++ sep :: l₂) = l₁ :: splitChar sep l₂ := by
  induction l₁ with
  | nil => simp [splitChar]
  | cons c cs ih =>
    have hc : c ≠ sep := h c (by simp)
    have ih' := ih (fun x hx => h x (by simp [hx]))
    simp only [List.cons_append, splitChar, hc, if_false, List.append_eq, ih']

theorem noNL_append {s t : String} (hs : noNL s) (ht : noNL t) : noNL (s ++ t) := by
  intro c hc
  rw [String.data_append] at hc
  rcases List.mem_append.1 hc with h | h
  · exact hs c h
  · exact ht c h

theorem noNL_statusToString (st : Option GitStatus) : noNL (statusToString st) := by
  unfold noNL
  rcases st with _ | s
  · decide
  · cases s <;> decide

theorem digitChar_ne_newline (m : Nat) : Nat.digitChar m ≠ '\n' := by
  by_cases h : m < 16
  · interval_cases m <;> decide
  · have h0 : ¬ (m = 0) := by omega
    have h1 : ¬ (m = 1) := by omega
    have h2 : ¬ (m = 2) := by omega
    have h3 : ¬ (m = 3) := by omega
    have h4 : ¬ (m = 4) := by omega
    have h5 : ¬ (m = 5) := by omega
    have h6 : ¬ (m = 6) := by omega
    have h7 : ¬ (m = 7) := by omega
    have h8 : ¬ (m = 8) := by omega
    have h9 : ¬ (m = 9) := by omega
    have h10 : ¬ (m = 10) := by omega
    have h11 : ¬ (m = 11) := by omega
    have h12 : ¬ (m = 12) := by omega
    have h13 : ¬ (m = 13) := by omega
    have h14 : ¬ (m = 14) := by omega
    have h15 : ¬ (m = 15) := by omega
    simp only [Nat.digitChar, h0, h1, h2, h3, h4, h5, h6, h7, h8, h9, h10, h11, h12, h13,
      h14, h15, if_false]
    decide

theorem toDigitsCore_noNL (b fuel : Nat) :
    ∀ (n : Nat) (ds : List Char), (∀ c ∈ ds, c ≠ '\n') →
      ∀ c ∈ Nat.toDigitsCore b fuel n ds, c ≠ '\n' := by
  induction fuel with
  | zero =>
    intro n ds h c hc
    rw [Nat.toDigitsCore] at hc
    exact h c hc
  | succ fuel ih =>
    intro n ds h c hc
    rw [Nat.toDigitsCore] at hc
    by_cases hz : n / b = 0
    · simp only [hz, if_true] at hc
      rcases List.mem_cons.1 hc with rfl | hmem
      · exact digitChar_ne_newline _
      · exact h c hmem
    · simp only [hz, if_false] at hc
      refine ih (n / b) (Nat.digitChar (n % b) :: ds) ?_ c hc
      intro x hx
      rcases List.mem_cons.1 hx with rfl | hmem
      · exact digitChar_ne_newline _
      · exact h x hmem

theorem noNL_natToString (n : Nat) : noNL (toString n) := by
  intro c hc
  exact toDigitsCore_noNL 10 (n + 1) n [] (by intro x hx; cases hx) c hc

theorem noNL_gmLine {fc : FileChange} (h : noNL fc.relativePath) : noNL (gmLine fc) :=
  noNL_append (noNL_append (noNL_statusToString fc.status) (by unfold noNL; decide)) h

theorem linesOf_joinSep {L : List String} (hne : L ≠ []) (h : ∀ s ∈ L, noNL s) :
    linesOf (joinSep "\n" L) = L := by
  induction L with
  | nil => exact absurd rfl hne
  | cons s rest ih =>
    cases rest with
    | nil =>
      have hs := h s (by simp)
      show (splitChar '\n' (joinSep "\n" [s]).data).map String.mk = [s]
      have : joinSep "\n" [s] = s := rfl
      rw [this, splitChar_of_not_mem (fun c hc => hs c hc)]
      simp [stringMk_data]
    | cons t ts =>
      have hs := h s (by simp)
      have ih' := ih (by simp) (fun x hx => h x (by simp [hx]))
      have hdata : (joinSep "\n" (s :: t :: ts)).data
          = s.data ++ '\n' :: (joinSep "\n" (t :: ts)).data := by
        show ((s ++ "\n") ++ joinSep "\n" (t :: ts)).data = _
        rw [String.data_append, String.data_append]
        simp
      show (splitChar '\n' (joinSep "\n" (s :: t :: ts)).data).map String.mk = _
      rw [hdata, splitChar_append_cons _ _ (fun c hc => hs c hc)]
      have : (splitChar '\n' (joinSep "\n" (t :: ts)).data).map String.mk = t :: ts := ih'
      simp [stringMk_data, this]

theorem flpp_zero (a b : String) : findLongestPathPrefixFuel 0 a b = none := rfl

theorem flpp_guard_false {a b : String} (h : ¬(a.length > 0 ∧ b.length > 0)) (n : Nat) :
    findLongestPathPrefixFuel (n + 1) a b = some none := by
  unfold findLongestPathPrefixFuel
  rw [if_neg h]

theorem flpp_dot {a b : String} (hg : a.length > 0 ∧ b.length > 0)
    (hd : a = "./" ∨ b = "./") (n : Nat) :
    findLongestPathPrefixFuel (n + 1) a b = some none := by
  unfold findLongestPathPrefixFuel
  rw [if_pos hg, if_pos hd]

theorem flpp_refl {a b : String} (hg : a.length > 0 ∧ b.length > 0)
    (hd : ¬(a = "./" ∨ b = "./")) (he : a = b) (n : Nat) :
    findLongestPathPrefixFuel (n + 1) a b = some (some a) := by
  unfold findLongestPathPrefixFuel
  rw [if_pos hg, if_neg hd, if_pos he]

theorem flpp_gt {a b : String} (hg : a.length > 0 ∧ b.length > 0)
    (hd : ¬(a = "./" ∨ b = "./")) (he : ¬(a = b)) (hl : a.length > b.length) (n : Nat) :
    findLongestPathPrefixFuel (n + 1) a b = findLongestPathPrefixFuel n (dirnameSlash a) b := by
  conv_lhs => unfold findLongestPathPrefixFuel
  rw [if_pos hg, if_neg hd, if_neg he, if_pos hl]

theorem flpp_le {a b : String} (hg : a.length > 0 ∧ b.length > 0)
    (hd : ¬(a = "./" ∨ b = "./")) (he : ¬(a = b)) (hl : ¬(a.length > b.length)) (n : Nat) :
    findLongestPathPrefixFuel (n + 1) a b = findLongestPathPrefixFuel n a (dirnameSlash b) := by
  conv_lhs => unfold findLongestPathPrefixFuel
  rw [if_pos hg, if_neg hd, if_neg he, if_neg hl]

theorem flpp_mono : ∀ {n m : Nat}, n ≤ m → ∀ {a b : String} {r : Option String},
    findLongestPathPrefixFuel n a b = some r → findLongestPathPrefixFuel m a b = some r := by
  intro n
  induction n with
  | zero =>
    intro m _ a b r h
    rw [flpp_zero] at h
    cases h
  | succ k ih =>
    intro m hm a b r h
    obtain ⟨m', rfl⟩ : ∃ m', m = m' + 1 := ⟨m - 1, by omega⟩
    have hk : k ≤ m' := by omega
    by_cases hg : a.length > 0 ∧ b.length > 0
    · by_cases hd : a = "./" ∨ b = "./"
      · rw [flpp_dot hg hd] at h ⊢
        exact h
      · by_cases he : a = b
        · rw [flpp_refl hg hd he] at h ⊢
          exact h
        · by_cases hl : a.length > b.length
          · rw [flpp_gt hg hd he hl] at h ⊢
            exact ih hk h
          · rw [flpp_le hg hd he hl] at h ⊢
            exact ih hk h
    · rw [flpp_guard_false hg] at h ⊢
      exact h

theorem findLongestPathPrefixFuel_deterministic {a b : String} {r₁ r₂ : Option String}
    (h₁ : FlppEval a b r₁) (h₂ : FlppEval a b r₂) : r₁ = r₂ := by
  obtain ⟨n, hn⟩ := h₁
  obtain ⟨m, hm⟩ := h₂
  rcases le_total n m with h | h
  · have := flpp_mono h hn
    rw [this] at hm
    exact Option.some.inj hm
  · have := flpp_mono h hm
    rw [this] at hn
    exact (Option.some.inj hn).symm

theorem dropWhile_len_le (p : Char → Bool) (l : List Char) :
    (l.dropWhile p).length ≤ l.length := by
  induction l with
  | nil => simp
  | cons x xs ih =>
    by_cases hx : p x
    · rw [List.dropWhile_cons_of_pos hx]
      exact le_trans ih (Nat.le_succ _)
    · rw [List.dropWhile_cons_of_neg (by simpa using hx)]

theorem double_dropWhile_lt {l : List Char} (hl : l ≠ []) :
    ((l.dropWhile (fun c => c = '/')).dropWhile (fun c => c ≠ '/')).length < l.length := by
  cases l with
  | nil => exact absurd rfl hl
  | cons x xs =>
    by_cases hx : x = '/'
    · rw [List.dropWhile_cons_of_pos (by simp [hx])]
      have := le_trans (dropWhile_len_le (fun c => c ≠ '/') (xs.dropWhile (fun c => c = '/')))
        (dropWhile_len_le (fun c => c = '/') xs)
      simpa using Nat.lt_succ_of_le this
    · rw [List.dropWhile_cons_of_neg (by simpa using hx)]
      rw [List.dropWhile_cons_of_pos (by simpa using hx)]
      have := dropWhile_len_le (fun c => c ≠ '/') xs
      simpa using Nat.lt_succ_of_le this

theorem string_length_data (s : String) : s.length = s.data.length := by
  cases s
  rfl

theorem dirnameSlash_data (s : String) : (dirnameSlash s).data = (dirname s).data ++ ['/'] :=
  String.data_append (dirname s) "/"

theorem dirnameSlash_length_pos (s : String) : 0 < (dirnameSlash s).length := by
  rw [string_length_data, dirnameSlash_data]
  simp

theorem dirname_of_head_ne_slash {s : String} {c0 : Char} {rest : List Char}
    (hs : s.data = c0 :: rest) (hc0 : c0 ≠ '/') :
    dirname s =
      if ((rest.reverse.dropWhile (fun c => c = '/')).dropWhile (fun c => c ≠ '/')).length = 0
      then "."
      else String.mk ((c0 :: rest).take
        ((rest.reverse.dropWhile (fun c => c = '/')).dropWhile (fun c => c ≠ '/')).length) := by
  unfold dirname
  rw [hs]
  simp only [hc0, if_false, false_and]

theorem dirnameSlash_spec {s : String} (h : NonAbs s) :
    (dirnameSlash s = "./" ∨ (dirnameSlash s).length < s.length)
    ∧ NonAbs (dirnameSlash s) ∧ (noNL s → noNL (dirnameSlash s)) := by
  cases hs : s.data with
  | nil =>
    have hempty : s = "" := by
      apply String.ext
      rw [hs]
    subst hempty
    refine ⟨Or.inl (by decide), by decide, fun _ => by decide⟩
  | cons c0 rest =>
    have hc0 : c0 ≠ '/' := by
      intro h'
      apply h
      rw [hs, h']
      rfl
    have hdir := dirname_of_head_ne_slash hs hc0
    by_cases hr : ((rest.reverse.dropWhile (fun c => c = '/')).dropWhile (fun c => c ≠ '/')).length = 0
    · rw [if_pos hr] at hdir
      have hds : dirnameSlash s = "./" := by
        show dirname s ++ "/" = "./"
        rw [hdir]
        decide
      refine ⟨Or.inl hds, by rw [hds]; decide, fun _ => by rw [hds]; decide⟩
    · rw [if_neg hr] at hdir
      have hrest : rest ≠ [] := by
        intro hempty
        apply hr
        rw [hempty]
        rfl
      have hlt : ((rest.reverse.dropWhile (fun c => c = '/')).dropWhile (fun c => c ≠ '/')).length
          < rest.length := by
        have h2 := double_dropWhile_lt (show rest.reverse ≠ [] by simpa using hrest)
        rwa [List.length_reverse] at h2
      obtain ⟨k, hk⟩ := Nat.exists_eq_succ_of_ne_zero hr
      rw [hk] at hlt
      have htake : (c0 :: rest).take
          ((rest.reverse.dropWhile (fun c => c = '/')).dropWhile (fun c => c ≠ '/')).length
          = c0 :: rest.take k := by
        rw [hk]
        rfl
      have hdata : (dirnameSlash s).data = (c0 :: rest.take k) ++ ['/'] := by
        rw [dirnameSlash_data, hdir, htake]
      constructor
      · refine Or.inr ?_
        rw [string_length_data, string_length_data, hdata, hs]
        simp only [List.length_append, List.length_cons, List.length_take,
          List.length_singleton, List.length_nil]
        have hkle : k ≤ rest.length := by omega
        rw [min_eq_left hkle]
        omega
      constructor
      · intro habs
        rw [hdata] at habs
        simp only [List.cons_append, List.head?] at habs
        exact hc0 (Option.some.inj habs)
      · intro hnl c hc
        rw [hdata] at hc
        rcases List.mem_append.1 hc with hmem | hmem
        · rcases List.mem_cons.1 hmem with rfl | hmem
          · exact hnl c (by rw [hs]; exact List.mem_cons_self _ _)
          · have : c ∈ rest := (List.take_sublist k rest).mem hmem
            exact hnl c (by rw [hs]; exact List.mem_cons_of_mem _ this)
        · simp only [List.mem_singleton] at hmem
          subst hmem
          decide

theorem flpp_term : ∀ (N : Nat) (a b : String), a.length + b.length ≤ N →
    NonAbs a → NonAbs b → ∃ n r, findLongestPathPrefixFuel n a b = some r := by
  intro N
  induction N with
  | zero =>
    intro a b hab _ _
    refine ⟨1, none, flpp_guard_false ?_ 0⟩
    omega
  | succ M ih =>
    intro a b hab ha hb
    by_cases hg : a.length > 0 ∧ b.length > 0
    · by_cases hd : a = "./" ∨ b = "./"
      · exact ⟨1, none, flpp_dot hg hd 0⟩
      · by_cases he : a = b
        · exact ⟨1, some a, flpp_refl hg hd he 0⟩
        · by_cases hl : a.length > b.length
          · rcases (dirnameSlash_spec ha).1 with hdot | hlen
            · refine ⟨2, none, ?_⟩
              rw [flpp_gt hg hd he hl 1]
              refine flpp_dot ⟨?_, hg.2⟩ (Or.inl hdot) 0
              rw [hdot]
              decide
            · obtain ⟨n, r, hr⟩ := ih (dirnameSlash a) b (by omega) (dirnameSlash_spec ha).2.1 hb
              refine ⟨n + 1, r, ?_⟩
              rw [flpp_gt hg hd he hl n]
              exact hr
          · rcases (dirnameSlash_spec hb).1 with hdot | hlen
            · refine ⟨2, none, ?_⟩
              rw [flpp_le hg hd he hl 1]
              refine flpp_dot ⟨hg.1, ?_⟩ (Or.inr hdot) 0
              rw [hdot]
              decide
            · obtain ⟨n, r, hr⟩ := ih a (dirnameSlash b) (by omega) ha (dirnameSlash_spec hb).2.1
              refine ⟨n + 1, r, ?_⟩
              rw [flpp_le hg hd he hl n]
              exact hr
    · exact ⟨1, none, flpp_guard_false hg 0⟩

theorem flpp_result_spec : ∀ (n : Nat) (a b p : String),
    findLongestPathPrefixFuel n a b = some (some p) →
    (∃ i, Nat.iterate dirnameSlash i a = p) ∧ (∃ j, Nat.iterate dirnameSlash j b = p) := by
  intro n
  induction n with
  | zero =>
    intro a b p h
    rw [flpp_zero] at h
    cases h
  | succ k ih =>
    intro a b p h
    by_cases hg : a.length > 0 ∧ b.length > 0
    · by_cases hd : a = "./" ∨ b = "./"
      · rw [flpp_dot hg hd] at h
        simp at h
      · by_cases he : a = b
        · rw [flpp_refl hg hd he] at h
          have hap : a = p := by simpa using h
          subst hap
          exact ⟨⟨0, rfl⟩, ⟨0, he.symm⟩⟩
        · by_cases hl : a.length > b.length
          · rw [flpp_gt hg hd he hl] at h
            obtain ⟨⟨i, hi⟩, hj⟩ := ih _ _ _ h
            refine ⟨⟨i + 1, ?_⟩, hj⟩
            rw [Function.iterate_succ_apply]
            exact hi
          · rw [flpp_le hg hd he hl] at h
            obtain ⟨hi, ⟨j, hj⟩⟩ := ih _ _ _ h
            refine ⟨hi, ⟨j + 1, ?_⟩⟩
            rw [Function.iterate_succ_apply]
            exact hj
    · rw [flpp_guard_false hg] at h
      simp at h

theorem nonAbs_iterate : ∀ (i : Nat) {s : String}, NonAbs s →
    NonAbs (Nat.iterate dirnameSlash i s) := by
  intro i
  induction i with
  | zero => intro s h; exact h
  | succ k ih =>
    intro s h
    rw [Function.iterate_succ_apply]
    exact ih (dirnameSlash_spec h).2.1

theorem noNL_iterate : ∀ (i : Nat) {s : String}, NonAbs s → noNL s →
    noNL (Nat.iterate dirnameSlash i s) := by
  intro i
  induction i with
  | zero => intro s _ h; exact h
  | succ k ih =>
    intro s hna h
    rw [Function.iterate_succ_apply]
    exact ih (dirnameSlash_spec hna).2.1 ((dirnameSlash_spec hna).2.2 h)

theorem flpp_result_nonAbs {n : Nat} {a b p : String}
    (h : findLongestPathPrefixFuel n a b = some (some p)) (ha : NonAbs a) : NonAbs p := by
  obtain ⟨⟨i, hi⟩, _⟩ := flpp_result_spec n a b p h
  rw [← hi]
  exact nonAbs_iterate i ha

theorem flpp_result_noNL {n : Nat} {a b p : String}
    (h : findLongestPathPrefixFuel n a b = some (some p)) (ha : NonAbs a) (hnl : noNL a) :
    noNL p := by
  obtain ⟨⟨i, hi⟩, _⟩ := flpp_result_spec n a b p h
  rw [← hi]
  exact noNL_iterate i ha hnl

theorem flpp_comm_nonAbs : ∀ (N : Nat) (a b : String), a.length + b.length ≤ N →
    NonAbs a → NonAbs b → ∃ r, FlppEval a b r ∧ FlppEval b a r := by
  intro N
  induction N with
  | zero =>
    intro a b hab _ _
    exact ⟨none, ⟨1, flpp_guard_false (by omega) 0⟩, ⟨1, flpp_guard_false (by omega) 0⟩⟩
  | succ M ih =>
    intro a b hab ha hb
    by_cases hg : a.length > 0 ∧ b.length > 0
    · have hg2 : b.length > 0 ∧ a.length > 0 := ⟨hg.2, hg.1⟩
      by_cases hd : a = "./" ∨ b = "./"
      · exact ⟨none, ⟨1, flpp_dot hg hd 0⟩, ⟨1, flpp_dot hg2 hd.symm 0⟩⟩
      · have hd2 : ¬(b = "./" ∨ a = "./") := fun h => hd h.symm
        by_cases he : a = b
        · refine ⟨some a, ⟨1, flpp_refl hg hd he 0⟩, ⟨1, ?_⟩⟩
          rw [flpp_refl hg2 hd2 he.symm 0, he]
        · have he2 : ¬(b = a) := fun h => he h.symm
          rcases Nat.lt_trichotomy a.length b.length with hlt | heq | hgt
          · -- b is longer: both runs truncate b
            have hlab : ¬(a.length > b.length) := by omega
            by_cases hdot : dirnameSlash b = "./"
            · refine ⟨none, ⟨2, ?_⟩, ⟨2, ?_⟩⟩
              · rw [flpp_le hg hd he hlab 1]
                exact flpp_dot ⟨hg.1, by rw [hdot]; decide⟩ (Or.inr hdot) 0
              · rw [flpp_gt hg2 hd2 he2 hlt 1]
                exact flpp_dot ⟨by rw [hdot]; decide, hg.1⟩ (Or.inl hdot) 0
            · have hlen := ((dirnameSlash_spec hb).1).resolve_left hdot
              obtain ⟨r, ⟨n₁, h₁⟩, ⟨n₂, h₂⟩⟩ :=
                ih a (dirnameSlash b) (by omega) ha (dirnameSlash_spec hb).2.1
              refine ⟨r, ⟨n₁ + 1, ?_⟩, ⟨n₂ + 1, ?_⟩⟩
              · rw [flpp_le hg hd he hlab n₁]
                exact h₁
              · rw [flpp_gt hg2 hd2 he2 hlt n₂]
                exact h₂
          · -- equal lengths, distinct strings: the tie-breaking diamond
            have hlab : ¬(a.length > b.length) := by omega
            have hlba : ¬(b.length > a.length) := by omega
            by_cases hdota : dirnameSlash a = "./"
            · by_cases hdotb : dirnameSlash b = "./"
              · refine ⟨none, ⟨2, ?_⟩, ⟨2, ?_⟩⟩
                · rw [flpp_le hg hd he hlab 1]
                  exact flpp_dot ⟨hg.1, by rw [hdotb]; decide⟩ (Or.inr hdotb) 0
                · rw [flpp_le hg2 hd2 he2 hlba 1]
                  exact flpp_dot ⟨hg.2, by rw [hdota]; decide⟩ (Or.inr hdota) 0
              · -- D a = "./", D b survives: both runs still end undefined
                have hlenb := ((dirnameSlash_spec hb).1).resolve_left hdotb
                have hgadb : a.length > 0 ∧ (dirnameSlash b).length > 0 :=
                  ⟨hg.1, dirnameSlash_length_pos b⟩
                have hladb : a.length > (dirnameSlash b).length := by omega
                have hdadb : ¬(a = "./" ∨ dirnameSlash b = "./") := by
                  intro hcase
                  rcases hcase with h1 | h1
                  · exact hd (Or.inl h1)
                  · exact hdotb h1
                have headb : ¬(a = dirnameSlash b) := by
                  intro hEq
                  have := Nat.ne_of_gt hladb
                  exact this (by rw [hEq])
                refine ⟨none, ⟨3, ?_⟩, ⟨2, ?_⟩⟩
                · rw [flpp_le hg hd he hlab 2, flpp_gt hgadb hdadb headb hladb 1, hdota]
                  exact flpp_dot ⟨by decide, dirnameSlash_length_pos b⟩ (Or.inl rfl) 0
                · rw [flpp_le hg2 hd2 he2 hlba 1, hdota]
                  exact flpp_dot ⟨hg.2, by decide⟩ (Or.inr rfl) 0
            · by_cases hdotb : dirnameSlash b = "./"
              · -- mirror: D b = "./", D a survives
                have hlena := ((dirnameSlash_spec ha).1).resolve_left hdota
                have hgbda : b.length > 0 ∧ (dirnameSlash a).length > 0 :=
                  ⟨hg.2, dirnameSlash_length_pos a⟩
                have hlbda : b.length > (dirnameSlash a).length := by omega
                have hdbda : ¬(b = "./" ∨ dirnameSlash a = "./") := by
                  intro hcase
                  rcases hcase with h1 | h1
                  · exact hd (Or.inr h1)
                  · exact hdota h1
                have hebda : ¬(b = dirnameSlash a) := by
                  intro hEq
                  have := Nat.ne_of_gt hlbda
                  exact this (by rw [hEq])
                refine ⟨none, ⟨2, ?_⟩, ⟨3, ?_⟩⟩
                · rw [flpp_le hg hd he hlab 1, hdotb]
                  exact flpp_dot ⟨hg.1, by decide⟩ (Or.inr rfl) 0
                · rw [flpp_le hg2 hd2 he2 hlba 2, flpp_gt hgbda hdbda hebda hlbda 1, hdotb]
                  exact flpp_dot ⟨by decide, dirnameSlash_length_pos a⟩ (Or.inl rfl) 0
              · -- neither collapses: both runs meet at (D a, D b)
                have hlena := ((dirnameSlash_spec ha).1).resolve_left hdota
                have hlenb := ((dirnameSlash_spec hb).1).resolve_left hdotb
                have hgadb : a.length > 0 ∧ (dirnameSlash b).length > 0 :=
                  ⟨hg.1, dirnameSlash_length_pos b⟩
                have hladb : a.length > (dirnameSlash b).length := by omega
                have hdadb : ¬(a = "./" ∨ dirnameSlash b = "./") := by
                  intro hcase
                  rcases hcase with h1 | h1
                  · exact hd (Or.inl h1)
                  · exact hdotb h1
                have headb : ¬(a = dirnameSlash b) := by
                  intro hEq
                  exact Nat.ne_of_gt hladb (by rw [hEq])
                have hgbda : b.length > 0 ∧ (dirnameSlash a).length > 0 :=
                  ⟨hg.2, dirnameSlash_length_pos a⟩
                have hlbda : b.length > (dirnameSlash a).length := by omega
                have hdbda : ¬(b = "./" ∨ dirnameSlash a = "./") := by
                  intro hcase
                  rcases hcase with h1 | h1
                  · exact hd (Or.inr h1)
                  · exact hdota h1
                have hebda : ¬(b = dirnameSlash a) := by
                  intro hEq
                  exact Nat.ne_of_gt hlbda (by rw [hEq])
                obtain ⟨r, ⟨n₁, h₁⟩, ⟨n₂, h₂⟩⟩ :=
                  ih (dirnameSlash a) (dirnameSlash b) (by omega)
                    (dirnameSlash_spec ha).2.1 (dirnameSlash_spec hb).2.1
                refine ⟨r, ⟨n₁ + 2, ?_⟩, ⟨n₂ + 2, ?_⟩⟩
                · rw [flpp_le hg hd he hlab (n₁ + 1), flpp_gt hgadb hdadb headb hladb n₁]
                  exact h₁
                · rw [flpp_le hg2 hd2 he2 hlba (n₂ + 1), flpp_gt hgbda hdbda hebda hlbda n₂]
                  exact h₂
          · -- a is longer: both runs truncate a
            have hlba : ¬(b.length > a.length) := by omega
            by_cases hdot : dirnameSlash a = "./"
            · refine ⟨none, ⟨2, ?_⟩, ⟨2, ?_⟩⟩
              · rw [flpp_gt hg hd he hgt 1]
                exact flpp_dot ⟨by rw [hdot]; decide, hg.2⟩ (Or.inl hdot) 0
              · rw [flpp_le hg2 hd2 he2 hlba 1]
                exact flpp_dot ⟨hg.2, by rw [hdot]; decide⟩ (Or.inr hdot) 0
            · have hlen := ((dirnameSlash_spec ha).1).resolve_left hdot
              obtain ⟨r, ⟨n₁, h₁⟩, ⟨n₂, h₂⟩⟩ :=
                ih (dirnameSlash a) b (by omega) (dirnameSlash_spec ha).2.1 hb
              refine ⟨r, ⟨n₁ + 1, ?_⟩, ⟨n₂ + 1, ?_⟩⟩
              · rw [flpp_gt hg hd he hgt n₁]
                exact h₁
              · rw [flpp_le hg2 hd2 he2 hlba n₂]
                exact h₂
    · refine ⟨none, ⟨1, flpp_guard_false hg 0⟩, ⟨1, flpp_guard_false ?_ 0⟩⟩
      intro hcase
      exact hg ⟨hcase.2, hcase.1⟩

theorem dirname_data_sub (s : String) : ∀ c ∈ (dirname s).data, c ∈ s.data ∨ c = '.' ∨ c = '/' := by
  obtain ⟨l⟩ := s
  cases l with
  | nil =>
    intro c hc
    right
    left
    have : c ∈ ['.'] := hc
    simpa using this
  | cons c0 rest =>
    intro c hc
    have hc2 : c ∈ (if ((rest.reverse.dropWhile (fun c => c = '/')).dropWhile
          (fun c => c ≠ '/')).length = 0
        then (if c0 = '/' then "/" else ".")
        else if (c0 = '/') ∧ ((rest.reverse.dropWhile (fun c => c = '/')).dropWhile
          (fun c => c ≠ '/')).length = 1 then "//"
        else String.mk ((c0 :: rest).take ((rest.reverse.dropWhile (fun c => c = '/')).dropWhile
          (fun c => c ≠ '/')).length)).data := hc
    split at hc2
    · split at hc2
      · right
        right
        have : c ∈ ['/'] := hc2
        simpa using this
      · right
        left
        have : c ∈ ['.'] := hc2
        simpa using this
    · split at hc2
      · right
        right
        have h2 : c ∈ ['/', '/'] := hc2
        rcases List.mem_cons.1 h2 with rfl | h3
        · rfl
        · simpa using h3
      · left
        exact (List.take_sublist _ _).mem hc2

theorem dirnameSlash_noNL {s : String} (h : noNL s) : noNL (dirnameSlash s) := by
  intro c hc
  rw [dirnameSlash_data] at hc
  rcases List.mem_append.1 hc with hmem | hmem
  · rcases dirname_data_sub s c hmem with hin | rfl | rfl
    · exact h c hin
    · decide
    · decide
  · simp only [List.mem_singleton] at hmem
    subst hmem
    decide

theorem noNL_iterate2 : ∀ (i : Nat) {s : String}, noNL s →
    noNL (Nat.iterate dirnameSlash i s) := by
  intro i
  induction i with
  | zero => intro s h; exact h
  | succ k ih =>
    intro s h
    rw [Function.iterate_succ_apply]
    exact ih (dirnameSlash_noNL h)

theorem flpp_result_noNL2 {n : Nat} {a b p : String}
    (h : findLongestPathPrefixFuel n a b = some (some p)) (ha : noNL a) : noNL p := by
  obtain ⟨⟨i, hi⟩, _⟩ := flpp_result_spec n a b p h
  rw [← hi]
  exact noNL_iterate2 i ha

theorem cpStepFuel_mono {n m : Nat} (h : n ≤ m) {cp : Option String} {fc : FileChange}
    {r : Option String} (hs : cpStepFuel n cp fc = some r) : cpStepFuel m cp fc = some r := by
  cases cp with
  | none => exact hs
  | some cp =>
    have hs2 : (if cp ≠ "" ∧ cp ≠ fc.path then findLongestPathPrefixFuel n cp fc.relativePath
        else some (some cp)) = some r := hs
    show (if cp ≠ "" ∧ cp ≠ fc.path then findLongestPathPrefixFuel m cp fc.relativePath
        else some (some cp)) = some r
    by_cases hcond : cp ≠ "" ∧ cp ≠ fc.path
    · rw [if_pos hcond] at hs2 ⊢
      exact flpp_mono h hs2
    · rw [if_neg hcond] at hs2 ⊢
      exact hs2

theorem gmStep_shape {n : Nat} {fc : FileChange} {st st' : GMState}
    (h : gmStep n fc st = some st') :
    ∃ cp1, cpStepFuel n st.commonPath fc = some cp1 ∧
      st' = { commonPath := cp1
              commonStatus := csStep st.commonStatus fc.status
              lines := st.lines ++ [gmLine fc] } := by
  unfold gmStep at h
  cases hcp : cpStepFuel n st.commonPath fc with
  | none => rw [hcp] at h; cases h
  | some cp1 =>
    rw [hcp] at h
    exact ⟨cp1, rfl, (Option.some.inj h).symm⟩

theorem gmStep_mono {n m : Nat} (h : n ≤ m) {fc : FileChange} {st st' : GMState}
    (hs : gmStep n fc st = some st') : gmStep m fc st = some st' := by
  obtain ⟨cp1, hcp1, rfl⟩ := gmStep_shape hs
  unfold gmStep
  rw [cpStepFuel_mono h hcp1]

theorem gmFoldAux_mono : ∀ {fcs : List FileChange} {n m : Nat}, n ≤ m → ∀ {st st' : GMState},
    gmFoldAux n fcs st = some st' → gmFoldAux m fcs st = some st' := by
  intro fcs
  induction fcs with
  | nil =>
    intro n m _ st st' hs
    exact hs
  | cons fc rest ih =>
    intro n m h st st' hs
    unfold gmFoldAux at hs ⊢
    cases hstep : gmStep n fc st with
    | none => rw [hstep] at hs; cases hs
    | some st1 =>
      rw [hstep] at hs
      rw [gmStep_mono h hstep]
      exact ih h hs

theorem gmFoldAux_lines : ∀ {fcs : List FileChange} {n : Nat} {st st' : GMState},
    gmFoldAux n fcs st = some st' → st'.lines = st.lines ++ fcs.map gmLine := by
  intro fcs
  induction fcs with
  | nil =>
    intro n st st' hs
    cases hs
    simp
  | cons fc rest ih =>
    intro n st st' hs
    unfold gmFoldAux at hs
    cases hstep : gmStep n fc st with
    | none => rw [hstep] at hs; cases hs
    | some st1 =>
      rw [hstep] at hs
      obtain ⟨cp1, _, rfl⟩ := gmStep_shape hstep
      rw [ih hs]
      simp

theorem gmFoldAux_status : ∀ {fcs : List FileChange} {n : Nat} {st st' : GMState},
    gmFoldAux n fcs st = some st' →
    st'.commonStatus = List.foldl csStep st.commonStatus (fcs.map FileChange.status) := by
  intro fcs
  induction fcs with
  | nil =>
    intro n st st' hs
    cases hs
    rfl
  | cons fc rest ih =>
    intro n st st' hs
    unfold gmFoldAux at hs
    cases hstep : gmStep n fc st with
    | none => rw [hstep] at hs; cases hs
    | some st1 =>
      rw [hstep] at hs
      obtain ⟨cp1, _, rfl⟩ := gmStep_shape hstep
      rw [ih hs]
      simp

theorem gmFoldAux_cp_none : ∀ {fcs : List FileChange} {n : Nat} {st st' : GMState},
    gmFoldAux n fcs st = some st' → st.commonPath = none → st'.commonPath = none := by
  intro fcs
  induction fcs with
  | nil =>
    intro n st st' hs hcp
    cases hs
    exact hcp
  | cons fc rest ih =>
    intro n st st' hs hcp
    unfold gmFoldAux at hs
    cases hstep : gmStep n fc st with
    | none => rw [hstep] at hs; cases hs
    | some st1 =>
      rw [hstep] at hs
      obtain ⟨cp1, hcp1, rfl⟩ := gmStep_shape hstep
      rw [hcp] at hcp1
      have h2 : some (none : Option String) = some cp1 := hcp1
      exact ih hs (Option.some.inj h2).symm

theorem gmFoldAux_term : ∀ (fcs : List FileChange) (st : GMState),
    (∀ fc ∈ fcs, NonAbs fc.relativePath) → NonAbsOpt st.commonPath →
    ∃ n st', gmFoldAux n fcs st = some st' ∧ NonAbsOpt st'.commonPath := by
  intro fcs
  induction fcs with
  | nil =>
    intro st _ hcp
    exact ⟨0, st, rfl, hcp⟩
  | cons fc rest ih =>
    intro st hfc hcp
    have hstep : ∃ n₁ cp1, cpStepFuel n₁ st.commonPath fc = some cp1 ∧ NonAbsOpt cp1 := by
      cases hc : st.commonPath with
      | none => exact ⟨0, none, rfl, trivial⟩
      | some cp =>
        by_cases hcond : cp ≠ "" ∧ cp ≠ fc.path
        · have hna : NonAbs cp := by rw [hc] at hcp; exact hcp
          obtain ⟨n, r, hr⟩ := flpp_term (cp.length + fc.relativePath.length) cp
            fc.relativePath le_rfl hna (hfc fc (by simp))
          refine ⟨n, r, ?_, ?_⟩
          · show (if cp ≠ "" ∧ cp ≠ fc.path then findLongestPathPrefixFuel n cp fc.relativePath
              else some (some cp)) = some r
            rw [if_pos hcond]
            exact hr
          · cases r with
            | none => trivial
            | some p => exact flpp_result_nonAbs hr hna
        · refine ⟨0, some cp, ?_, by rw [hc] at hcp; exact hcp⟩
          show (if cp ≠ "" ∧ cp ≠ fc.path then findLongestPathPrefixFuel 0 cp fc.relativePath
            else some (some cp)) = some (some cp)
          rw [if_neg hcond]
    obtain ⟨n₁, cp1, hcp1, hna1⟩ := hstep
    obtain ⟨n₂, st', hfold, hna'⟩ := ih
      { commonPath := cp1
        commonStatus := csStep st.commonStatus fc.status
        lines := st.lines ++ [gmLine fc] }
      (fun x hx => hfc x (by simp [hx])) hna1
    refine ⟨max n₁ n₂, st', ?_, hna'⟩
    show (match gmStep (max n₁ n₂) fc st with
      | none => none
      | some st1 => gmFoldAux (max n₁ n₂) rest st1) = some st'
    have hstep2 : gmStep (max n₁ n₂) fc st = some
        { commonPath := cp1
          commonStatus := csStep st.commonStatus fc.status
          lines := st.lines ++ [gmLine fc] } := by
      unfold gmStep
      rw [cpStepFuel_mono (le_max_left n₁ n₂) hcp1]
    rw [hstep2]
    exact gmFoldAux_mono (le_max_right n₁ n₂) hfold

theorem cpStepFuel_noNL {n : Nat} {cp : Option String} {fc : FileChange} {r : Option String}
    (h : cpStepFuel n cp fc = some r) (hcp : noNLOpt cp) :
    noNLOpt r := by
  cases cp with
  | none =>
    have h2 : some (none : Option String) = some r := h
    rw [← Option.some.inj h2]
    trivial
  | some cp =>
    have h2 : (if cp ≠ "" ∧ cp ≠ fc.path then findLongestPathPrefixFuel n cp fc.relativePath
        else some (some cp)) = some r := h
    by_cases hcond : cp ≠ "" ∧ cp ≠ fc.path
    · rw [if_pos hcond] at h2
      cases r with
      | none => trivial
      | some p => exact flpp_result_noNL2 h2 hcp
    · rw [if_neg hcond] at h2
      rw [← Option.some.inj h2]
      exact hcp

theorem gmFoldAux_cp_noNL : ∀ {fcs : List FileChange} {n : Nat} {st st' : GMState},
    gmFoldAux n fcs st = some st' → (∀ fc ∈ fcs, noNL fc.relativePath) →
    noNLOpt st.commonPath → noNLOpt st'.commonPath := by
  intro fcs
  induction fcs with
  | nil =>
    intro n st st' hs _ hcp
    cases hs
    exact hcp
  | cons fc rest ih =>
    intro n st st' hs hfc hcp
    unfold gmFoldAux at hs
    cases hstep : gmStep n fc st with
    | none => rw [hstep] at hs; cases hs
    | some st1 =>
      rw [hstep] at hs
      obtain ⟨cp1, hcp1, rfl⟩ := gmStep_shape hstep
      exact ih hs (fun x hx => hfc x (by simp [hx])) (cpStepFuel_noNL hcp1 hcp)

theorem generateMessage_eq {n : Nat} {fcs : List FileChange} {st' : GMState}
    (h : gmFoldAux n fcs (gmInit fcs) = some st') :
    generateMessage n fcs = some (joinSep "\n"
      (if fcs.length > 1 then
        gmSummary st'.commonStatus st'.commonPath fcs.length :: "" :: st'.lines
       else st'.lines)) := by
  unfold generateMessage
  rw [h]

theorem generateMessage_mono {n m : Nat} (h : n ≤ m) {fcs : List FileChange} {s : String}
    (hs : generateMessage n fcs = some s) : generateMessage m fcs = some s := by
  unfold generateMessage at hs ⊢
  cases hf : gmFoldAux n fcs (gmInit fcs) with
  | none => rw [hf] at hs; cases hs
  | some st' =>
    rw [hf] at hs
    rw [gmFoldAux_mono h hf]
    exact hs

theorem generateMessage_deterministic {fcs : List FileChange} {s₁ s₂ : String}
    (h₁ : GMEval fcs s₁) (h₂ : GMEval fcs s₂) : s₁ = s₂ := by
  obtain ⟨n, hn⟩ := h₁
  obtain ⟨m, hm⟩ := h₂
  rcases le_total n m with h | h
  · have := generateMessage_mono h hn
    rw [this] at hm
    exact Option.some.inj hm
  · have := generateMessage_mono h hm
    rw [this] at hn
    exact (Option.some.inj hn).symm

theorem csFold_not_truthy {cs : Option GitStatus} (h : statusTruthy cs = false) :
    ∀ l : List (Option GitStatus), List.foldl csStep cs l = cs := by
  intro l
  induction l with
  | nil => rfl
  | cons s rest ih =>
    have hstep : csStep cs s = cs := by
      unfold csStep
      rw [if_neg]
      intro hcase
      rw [h] at hcase
      exact Bool.false_ne_true hcase.1
    rw [List.foldl_cons, hstep]
    exact ih

theorem csFold_truthy {cs : Option GitStatus} (h : statusTruthy cs = true) :
    ∀ l : List (Option GitStatus),
      List.foldl csStep cs l = if ∀ s ∈ l, s = cs then cs else none := by
  intro l
  induction l with
  | nil => simp
  | cons s rest ih =>
    rw [List.foldl_cons]
    by_cases hs : s = cs
    · have hstep : csStep cs s = cs := by
        unfold csStep
        rw [if_neg]
        intro hcase
        exact hcase.2 hs.symm
      rw [hstep, ih]
      have hiff : (∀ x ∈ s :: rest, x = cs) ↔ (∀ x ∈ rest, x = cs) := by
        constructor
        · intro hall x hx
          exact hall x (List.mem_cons_of_mem _ hx)
        · intro hall x hx
          rcases List.mem_cons.1 hx with rfl | hx2
          · exact hs
          · exact hall x hx2
      by_cases hall : ∀ x ∈ rest, x = cs
      · rw [if_pos hall, if_pos (hiff.2 hall)]
      · rw [if_neg hall, if_neg (fun h2 => hall (hiff.1 h2))]
    · have hstep : csStep cs s = none := by
        unfold csStep
        rw [if_pos ⟨h, fun hEq => hs hEq.symm⟩]
      rw [hstep, csFold_not_truthy (show statusTruthy none = false from rfl) rest, if_neg]
      intro hall2
      exact hs (hall2 s (List.mem_cons_self _ _))

theorem statusToString_not_truthy {cs : Option GitStatus} (h : statusTruthy cs = false) :
    statusToString cs = "Update" := by
  cases cs with
  | none => rfl
  | some st =>
    cases st <;> revert h <;> decide

theorem summary_action_eq (s0 : Option GitStatus) (l : List (Option GitStatus)) :
    statusToString (List.foldl csStep s0 l)
      = if ∀ s ∈ l, s = s0 then statusToString s0 else "Update" := by
  cases htr : statusTruthy s0 with
  | false =>
    rw [csFold_not_truthy htr]
    by_cases hall : ∀ s ∈ l, s = s0
    · rw [if_pos hall]
    · rw [if_neg hall]
      exact statusToString_not_truthy htr
  | true =>
    rw [csFold_truthy htr]
    by_cases hall : ∀ s ∈ l, s = s0
    · rw [if_pos hall, if_pos hall]
    · rw [if_neg hall, if_neg hall]
      rfl

theorem removeFirst_some_path : ∀ {l : List GitChange} {p : String} {c : GitChange}
    {l' : List GitChange}, removeFirst p l = (some c, l') → c.uriPath = p := by
  intro l
  induction l with
  | nil =>
    intro p c l' h
    cases h
  | cons x xs ih =>
    intro p c l' h
    unfold removeFirst at h
    by_cases hx : x.uriPath = p
    · rw [if_pos hx] at h
      cases h
      exact hx
    · rw [if_neg hx] at h
      have h1 : (removeFirst p xs).1 = some c := congrArg Prod.fst h
      have h2 : removeFirst p xs = ((removeFirst p xs).1, (removeFirst p xs).2) := rfl
      rw [h1] at h2
      exact ih h2

theorem removeFirst_of_filter_nil : ∀ {l : List GitChange} {p : String},
    l.filter (fun x => x.uriPath = p) = [] → removeFirst p l = (none, l) := by
  intro l
  induction l with
  | nil =>
    intro p _
    rfl
  | cons x xs ih =>
    intro p h
    rw [List.filter_cons] at h
    by_cases hx : x.uriPath = p
    · rw [if_pos (by simpa using hx)] at h
      cases h
    · rw [if_neg (by simpa using hx)] at h
      unfold removeFirst
      rw [if_neg hx]
      show ((removeFirst p xs).1, x :: (removeFirst p xs).2) = (none, x :: xs)
      rw [ih h]

theorem removeFirst_of_filter_cons : ∀ {l : List GitChange} {p : String} {c : GitChange}
    {cs : List GitChange}, l.filter (fun x => x.uriPath = p) = c :: cs →
    ∃ l', removeFirst p l = (some c, l') ∧ l'.filter (fun x => x.uriPath = p) = cs := by
  intro l
  induction l with
  | nil =>
    intro p c cs h
    cases h
  | cons x xs ih =>
    intro p c cs h
    rw [List.filter_cons] at h
    by_cases hx : x.uriPath = p
    · rw [if_pos (by simpa using hx)] at h
      obtain ⟨rfl, h2⟩ := List.cons.inj h
      refine ⟨xs, ?_, h2⟩
      unfold removeFirst
      rw [if_pos hx]
    · rw [if_neg (by simpa using hx)] at h
      obtain ⟨l', h1, h2⟩ := ih h
      refine ⟨x :: l', ?_, ?_⟩
      · unfold removeFirst
        rw [if_neg hx]
        show ((removeFirst p xs).1, x :: (removeFirst p xs).2) = (some c, x :: l')
        rw [h1]
      · rw [List.filter_cons, if_neg (by simpa using hx)]
        exact h2

theorem popChange_staged_some {p : String} {stagedFiles changedFiles : List GitChange}
    {c : GitChange} {staged' : List GitChange}
    (h : removeFirst p stagedFiles = (some c, staged')) :
    popChange p true stagedFiles changedFiles = (some c, staged', changedFiles) := by
  unfold popChange
  rw [if_pos rfl, h]

theorem popChange_staged_none {p : String} {stagedFiles changedFiles : List GitChange}
    (h : (removeFirst p stagedFiles).1 = none) :
    popChange p true stagedFiles changedFiles
      = ((removeFirst p changedFiles).1, stagedFiles, (removeFirst p changedFiles).2) := by
  unfold popChange
  rw [if_pos rfl]
  have h2 : removeFirst p stagedFiles = (none, (removeFirst p stagedFiles).2) := by
    rw [← h]
  rw [h2]

theorem popChange_some_path {p : String} {stagedFiles changedFiles : List GitChange}
    {c : GitChange} (h : (popChange p true stagedFiles changedFiles).1 = some c) :
    c.uriPath = p := by
  rcases hrs : removeFirst p stagedFiles with ⟨o, s'⟩
  cases o with
  | some c1 =>
    rw [popChange_staged_some hrs] at h
    cases h
    exact removeFirst_some_path hrs
  | none =>
    have h0 : (removeFirst p stagedFiles).1 = none := by rw [hrs]
    rw [popChange_staged_none h0] at h
    rcases hrc : removeFirst p changedFiles with ⟨o2, c2'⟩
    rw [hrc] at h
    cases o2 with
    | none => cases h
    | some c2 =>
      cases h
      exact removeFirst_some_path hrc

theorem resolveByPaths_cons (rootPath p : String) (rest : List String)
    (stagedFiles changedFiles : List GitChange) :
    resolveByPaths rootPath (p :: rest) stagedFiles changedFiles =
      ((match (popChange p true stagedFiles changedFiles).1 with
        | some c => FileChange.ofChange c rootPath
        | none => FileChange.ofPath p rootPath none) ::
       (resolveByPaths rootPath rest (popChange p true stagedFiles changedFiles).2.1
         (popChange p true stagedFiles changedFiles).2.2).1,
       (resolveByPaths rootPath rest (popChange p true stagedFiles changedFiles).2.1
         (popChange p true stagedFiles changedFiles).2.2).2) := rfl

theorem resolveByPaths_map_path : ∀ (uriPaths : List String) (rootPath : String)
    (stagedFiles changedFiles : List GitChange),
    ((resolveByPaths rootPath uriPaths stagedFiles changedFiles).1).map FileChange.path
      = uriPaths := by
  intro uriPaths
  induction uriPaths with
  | nil =>
    intro rootPath staged changed
    rfl
  | cons p rest ih =>
    intro rootPath staged changed
    rw [resolveByPaths_cons]
    simp only [List.map_cons]
    cases hpop : (popChange p true staged changed).1 with
    | some c =>
      exact List.cons_eq_cons.mpr ⟨popChange_some_path hpop, ih rootPath _ _⟩
    | none =>
      exact List.cons_eq_cons.mpr ⟨rfl, ih rootPath _ _⟩

theorem instantCommit_spec {n : Nat} {fileChanges : List FileChange} {st : RepoState} {m : String}
    (h : generateMessage n fileChanges = some m) :
    instantCommit n fileChanges st = some
      (repoAdd ((fileChanges.filter (fun fc => fc.status ≠ some GitStatus.INDEX_DELETED)).map
        FileChange.path) st,
       { addCalls := [(fileChanges.filter (fun fc => fc.status ≠ some GitStatus.INDEX_DELETED)).map
           FileChange.path]
         commitCalls := [m]
         stagedQueryCount := 0
         infoMessages := ["Instant committed: " ++ firstLine m] }) := by
  unfold instantCommit
  rw [h]

theorem instantCommitFiles_unclean {n : Nat} {rootPath : String} {uriPaths : List String}
    {stagedFiles changedFiles : List GitChange}
    (hne : (resolveByPaths rootPath uriPaths stagedFiles changedFiles).1 ≠ [])
    (hstaged : (resolveByPaths rootPath uriPaths stagedFiles changedFiles).2.1 ≠ []) :
    instantCommitFiles n rootPath uriPaths stagedFiles changedFiles = some
      { errors := ["Please clean up your staged files before instant committing."]
        infos := [], addCalls := [], commitCalls := [] } := by
  have h1 : ¬((resolveByPaths rootPath uriPaths stagedFiles changedFiles).1.length ≤ 0) := by
    intro hcontra
    exact hne (List.length_eq_zero.1 (Nat.le_zero.1 hcontra))
  have h2 : (resolveByPaths rootPath uriPaths stagedFiles changedFiles).2.1.length > 0 :=
    List.length_pos.2 hstaged
  unfold instantCommitFiles
  simp only [if_neg h1, if_pos h2]

theorem instantCommitGroups_unknown {n : Nat} {rootPath : String} {groupIds : List String}
    {stagedFiles changedFiles : List GitChange}
    (hempty : (groupFold rootPath groupIds stagedFiles changedFiles).fileChanges = [])
    (hunk : (groupFold rootPath groupIds stagedFiles changedFiles).unknownIds ≠ []) :
    instantCommitGroups n rootPath groupIds stagedFiles changedFiles = some
      { errors := ["Unknown resource group ids: '"
          ++ joinSep "', '" (groupFold rootPath groupIds stagedFiles changedFiles).unknownIds
          ++ "'"]
        infos := [], addCalls := [], commitCalls := [] } := by
  have h1 : (groupFold rootPath groupIds stagedFiles changedFiles).fileChanges.length ≤ 0 := by
    rw [hempty]
    exact le_rfl
  have h2 : (groupFold rootPath groupIds stagedFiles changedFiles).unknownIds.length > 0 :=
    List.length_pos.2 hunk
  unfold instantCommitGroups
  simp only [if_pos h1, if_pos h2]

theorem stringAppend_empty (s : String) : s ++ "" = s := by
  apply String.ext
  rw [String.data_append]
  simp

theorem noNL_gmSummary {cs : Option GitStatus} {cp : Option String} {len : Nat}
    (hcp : noNLOpt cp) : noNL (gmSummary cs cp len) := by
  unfold gmSummary
  refine noNL_append (noNL_append (noNL_append (noNL_append (noNL_statusToString cs) ?_)
    (noNL_natToString len)) ?_) ?_
  · unfold noNL
    decide
  · unfold noNL
    decide
  · cases cp with
    | none =>
      unfold noNL
      decide
    | some p =>
      show noNL (if p ≠ "" then " from " ++ p else "")
      by_cases hp : p ≠ ""
      · rw [if_pos hp]
        exact noNL_append (by unfold noNL; decide) hcp
      · rw [if_neg hp]
        unfold noNL
        decide

theorem resolveByPaths_duplicate (rootPath p : String)
    (stagedFiles changedFiles : List GitChange) (c : GitChange)
    (h : (stagedFiles ++ changedFiles).filter (fun x => x.uriPath = p) = [c]) :
    (resolveByPaths rootPath [p, p] stagedFiles changedFiles).1
      = [FileChange.ofChange c rootPath, FileChange.ofPath p rootPath none] := by
  rw [List.filter_append] at h
  cases hfs : stagedFiles.filter (fun x => x.uriPath = p) with
  | nil =>
    rw [hfs, List.nil_append] at h
    have hrs : removeFirst p stagedFiles = (none, stagedFiles) := removeFirst_of_filter_nil hfs
    obtain ⟨changed', h1, h2⟩ := removeFirst_of_filter_cons h
    have hrc : removeFirst p changed' = (none, changed') := removeFirst_of_filter_nil h2
    have hpop1 : popChange p true stagedFiles changedFiles = (some c, stagedFiles, changed') := by
      rw [popChange_staged_none (by rw [hrs]), h1]
    have hpop2 : popChange p true stagedFiles changed' = (none, stagedFiles, changed') := by
      rw [popChange_staged_none (by rw [hrs]), hrc]
    rw [resolveByPaths_cons, hpop1, resolveByPaths_cons, hpop2]
    rfl
  | cons c1 cs1 =>
    rw [hfs, List.cons_append] at h
    obtain ⟨hc1, hrest⟩ := List.cons.inj h
    subst hc1
    obtain ⟨hcs1, hfc⟩ := List.append_eq_nil.1 hrest
    subst hcs1
    obtain ⟨staged', h1, h2⟩ := removeFirst_of_filter_cons hfs
    have hrs2 : removeFirst p staged' = (none, staged') := removeFirst_of_filter_nil h2
    have hrc : removeFirst p changedFiles = (none, changedFiles) := removeFirst_of_filter_nil hfc
    have hpop1 : popChange p true stagedFiles changedFiles = (some c1, staged', changedFiles) :=
      popChange_staged_some h1
    have hpop2 : popChange p true staged' changedFiles = (none, staged', changedFiles) := by
      rw [popChange_staged_none (by rw [hrs2]), hrc]
    rw [resolveByPaths_cons, hpop1, resolveByPaths_cons, hpop2]
    rfl

/-- C1, counterexample: the claim that the commit message is synthesized
from the staged change set re-queried after the bulk stage call is false.
For the resolved list `[fcUnknownA]` over an empty repository,
`instantCommit` commits with the message `"Update a.ts"` generated from
the pre-stage list (and performs no staged-pool re-query), while the
message the staged pool after the stage call would synthesize is the
empty string. -/
theorem instantCommit_message_not_from_requery :
    instantCommit 10 [fcUnknownA] { staged := [], unstaged := [] } = some
      ({ staged := [], unstaged := [] },
       { addCalls := [["/r/a.ts"]]
         commitCalls := ["Update a.ts"]
         stagedQueryCount := 0
         infoMessages := ["Instant committed: Update a.ts"] })
    ∧ generateMessage 10 ((({ staged := [], unstaged := [] } : RepoState)).staged.map
        (fun c => FileChange.ofChange c "/r")) = some ""
    ∧ ("Update a.ts" : String) ≠ "" := by
  refine ⟨by decide, by decide, by decide⟩

/-- C1 (corrected): the message `instantCommit` passes to the
repository's commit operation is `generateMessage` of the pre-stage
resolved `FileChange` list, computed before the bulk stage call; the
staged pool is never re-queried between the stage call and the commit
call. -/
theorem instantCommit_message_from_prestage_list (n : Nat) (fileChanges : List FileChange)
    (st : RepoState) (m : String) (h : generateMessage n fileChanges = some m) :
    ∃ st' tr, instantCommit n fileChanges st = some (st', tr)
      ∧ tr.commitCalls = [m] ∧ tr.stagedQueryCount = 0 :=
  ⟨_, _, instantCommit_spec h, rfl, rfl⟩

/-- Witness for C1's theorem at a concrete input. -/
theorem instantCommit_message_from_prestage_list_witness :
    ∃ st' tr, instantCommit 10 [fcUnknownA] { staged := [], unstaged := [] } = some (st', tr)
      ∧ tr.commitCalls = ["Update a.ts"] ∧ tr.stagedQueryCount = 0 :=
  instantCommit_message_from_prestage_list 10 [fcUnknownA] { staged := [], unstaged := [] }
    "Update a.ts" (by decide)

/-- C2, counterexample: the claim that the stage call is not issued when
the set of paths to stage is empty is false. For the single resolved
entry `fcDeletedD` (status `INDEX_DELETED`) the filtered path set is
empty, yet `instantCommit` still issues exactly one `repository.add`
call, with the empty path list. -/
theorem instantCommit_empty_stage_call_issued :
    ([fcDeletedD].filter (fun fc => fc.status ≠ some GitStatus.INDEX_DELETED)).map
        FileChange.path = ([] : List String)
    ∧ instantCommit 10 [fcDeletedD] { staged := [chgDeletedD], unstaged := [] } = some
        ({ staged := [chgDeletedD], unstaged := [] },
         { addCalls := [[]]
           commitCalls := ["Delete d.ts"]
           stagedQueryCount := 0
           infoMessages := ["Instant committed: Delete d.ts"] })
    ∧ ([[]] : List (List String)) ≠ [] := by
  refine ⟨by decide, by decide, by decide⟩

/-- C2 (corrected): the bulk stage call of `instantCommit` receives
exactly the absolute paths of the resolved `FileChange` entries whose
status is not `INDEX_DELETED`; the call is issued unconditionally — when
that set is empty it is made with an empty path list rather than
skipped. -/
theorem instantCommit_stage_call_exact_filtered_paths (n : Nat)
    (fileChanges : List FileChange) (st : RepoState) (m : String)
    (h : generateMessage n fileChanges = some m) :
    ∃ st' tr, instantCommit n fileChanges st = some (st', tr)
      ∧ tr.addCalls = [(fileChanges.filter
          (fun fc => fc.status ≠ some GitStatus.INDEX_DELETED)).map FileChange.path] :=
  ⟨_, _, instantCommit_spec h, rfl⟩

/-- Witness for C2's theorem at a concrete input whose filtered path set
is empty. -/
theorem instantCommit_stage_call_exact_filtered_paths_witness :
    ∃ st' tr, instantCommit 10 [fcDeletedD] { staged := [chgDeletedD], unstaged := [] }
        = some (st', tr)
      ∧ tr.addCalls = [([fcDeletedD].filter
          (fun fc => fc.status ≠ some GitStatus.INDEX_DELETED)).map FileChange.path] :=
  instantCommit_stage_call_exact_filtered_paths 10 [fcDeletedD]
    { staged := [chgDeletedD], unstaged := [] } "Delete d.ts" (by decide)

/-- C7 (confirmed): resolving the group identifier `'index'` empties the
staged pool, leaves the changed pool untouched, and appends one
`FileChange` wrapping each pre-call staged record, so the sequence
produced for the group has the pre-call staged pool's length. -/
theorem resolveByGroup_index_drains (rootPath : String) (st : GroupState) :
    resolveGroup rootPath "index" st =
      { staged := []
        changed := st.changed
        fileChanges := st.fileChanges ++ st.staged.map (fun c => FileChange.ofChange c rootPath)
        unknownIds := st.unknownIds }
    ∧ (st.staged.map (fun c => FileChange.ofChange c rootPath)).length = st.staged.length := by
  constructor
  · unfold resolveGroup
    rw [if_pos rfl]
  · exact List.length_map _ _

/-- C8 (confirmed): when path resolution yields a non-empty `FileChange`
list but leaves records in the staged pool, `instantCommitFiles` fails
with the unclean-staged-state error message and issues neither a stage
call nor a commit call. -/
theorem uncleanStaged_blocks_stage_and_commit (n : Nat) (rootPath : String)
    (uriPaths : List String) (stagedFiles changedFiles : List GitChange)
    (hne : (resolveByPaths rootPath uriPaths stagedFiles changedFiles).1 ≠ [])
    (hstaged : (resolveByPaths rootPath uriPaths stagedFiles changedFiles).2.1 ≠ []) :
    instantCommitFiles n rootPath uriPaths stagedFiles changedFiles = some
      { errors := ["Please clean up your staged files before instant committing."]
        infos := [], addCalls := [], commitCalls := [] } :=
  instantCommitFiles_unclean hne hstaged

/-- Witness for C8's theorem: a one-file selection that does not cover
the staged record `chgStagedB`. -/
theorem uncleanStaged_blocks_stage_and_commit_witness :
    instantCommitFiles 5 "/r" ["/r/a.ts"] [chgStagedB] [] = some
      { errors := ["Please clean up your staged files before instant committing."]
        infos := [], addCalls := [], commitCalls := [] } :=
  uncleanStaged_blocks_stage_and_commit 5 "/r" ["/r/a.ts"] [chgStagedB] []
    (by decide) (by decide)

/-- C9, counterexample: the claim that any request containing an
identifier outside `{index, workingTree}` reports an unrecognized-group
error is false. Requesting `["index", "bogus"]` with one staged record
reports no error at all and proceeds to commit. -/
theorem unknownGroup_silently_ignored :
    (instantCommitGroups 50 "/r" ["index", "bogus"] [chgStagedB] []).map RunResult.errors
      = some []
    ∧ (instantCommitGroups 50 "/r" ["index", "bogus"] [chgStagedB] []).map
        RunResult.commitCalls = some ["Add b.ts"] := by
  refine ⟨by decide, by decide⟩

/-- C9 (corrected): the unrecognized-group error (listing every
offending identifier) is reported only when the group resolution
produced no `FileChange` at all; otherwise unrecognized identifiers are
silently ignored. -/
theorem unknownGroup_reported_only_when_no_changes (n : Nat) (rootPath : String)
    (groupIds : List String) (stagedFiles changedFiles : List GitChange)
    (hempty : (groupFold rootPath groupIds stagedFiles changedFiles).fileChanges = [])
    (hunk : (groupFold rootPath groupIds stagedFiles changedFiles).unknownIds ≠ []) :
    instantCommitGroups n rootPath groupIds stagedFiles changedFiles = some
      { errors := ["Unknown resource group ids: '"
          ++ joinSep "', '" (groupFold rootPath groupIds stagedFiles changedFiles).unknownIds
          ++ "'"]
        infos := [], addCalls := [], commitCalls := [] } :=
  instantCommitGroups_unknown hempty hunk

/-- Witness for C9's theorem: two unknown identifiers, both listed in
the reported message. -/
theorem unknownGroup_reported_only_when_no_changes_witness :
    instantCommitGroups 5 "/r" ["bogus", "nope"] [] [] = some
      { errors := ["Unknown resource group ids: 'bogus', 'nope'"]
        infos := [], addCalls := [], commitCalls := [] } :=
  unknownGroup_reported_only_when_no_changes 5 "/r" ["bogus", "nope"] [] []
    (by decide) (by decide)

/-- C10, counterexample: `findLongestPathPrefix` is not commutative on
all string pairs. On `("//a", "///")` it terminates with `"//"`, while
on the flipped pair it terminates with `"///"`. -/
theorem findLongestPathPrefix_not_commutative :
    findLongestPathPrefixFuel 10 "//a" "///" = some (some "//")
    ∧ findLongestPathPrefixFuel 10 "///" "//a" = some (some "///")
    ∧ FlppEval "//a" "///" (some "//")
    ∧ ¬ FlppEval "///" "//a" (some "//") := by
  refine ⟨by decide, by decide, ⟨10, by decide⟩, ?_⟩
  intro hcontra
  have h2 : FlppEval "///" "//a" (some "///") := ⟨10, by decide⟩
  have := findLongestPathPrefixFuel_deterministic hcontra h2
  exact absurd this (by decide)

/-- C10 (corrected): on every pair of strings that do not begin with a
slash — which covers every relative path the extension computes —
`findLongestPathPrefix` terminates in both argument orders and the two
results agree, even though the loop truncates its second argument first
on equal-length unequal inputs. -/
theorem findLongestPathPrefix_comm_of_nonAbs (a b : String)
    (ha : NonAbs a) (hb : NonAbs b) :
    (∃ r, FlppEval a b r ∧ FlppEval b a r)
    ∧ ∀ r₁ r₂, FlppEval a b r₁ → FlppEval b a r₂ → r₁ = r₂ := by
  have hcomm := flpp_comm_nonAbs (a.length + b.length) a b le_rfl ha hb
  refine ⟨hcomm, ?_⟩
  obtain ⟨r, h1, h2⟩ := hcomm
  intro r₁ r₂ e1 e2
  rw [findLongestPathPrefixFuel_deterministic e1 h1,
    findLongestPathPrefixFuel_deterministic e2 h2]

/-- Witness for C10's theorem at a concrete pair of relative paths. -/
theorem findLongestPathPrefix_comm_of_nonAbs_witness :
    (∃ r, FlppEval "a/b" "a/c" r ∧ FlppEval "a/c" "a/b" r)
    ∧ ∀ r₁ r₂, FlppEval "a/b" "a/c" r₁ → FlppEval "a/c" "a/b" r₂ → r₁ = r₂ :=
  findLongestPathPrefix_comm_of_nonAbs "a/b" "a/c" (by decide) (by decide)

/-- C6 (confirmed): path-based resolution returns exactly one
`FileChange` per input path, in input order (the resolved list's paths
are exactly the input paths); and when exactly one pool record matches a
path, resolving that path twice in one call yields first the wrapped
record (real status) and then the pathname-only fallback with absent
status, because the match is drained from its pool when claimed. -/
theorem resolveByPaths_order_and_duplicate :
    (∀ (uriPaths : List String) (rootPath : String)
        (stagedFiles changedFiles : List GitChange),
      ((resolveByPaths rootPath uriPaths stagedFiles changedFiles).1).map FileChange.path
        = uriPaths)
    ∧ ∀ (rootPath p : String) (stagedFiles changedFiles : List GitChange) (c : GitChange),
        (stagedFiles ++ changedFiles).filter (fun x => x.uriPath = p) = [c] →
        (resolveByPaths rootPath [p, p] stagedFiles changedFiles).1
          = [FileChange.ofChange c rootPath, FileChange.ofPath p rootPath none] :=
  ⟨resolveByPaths_map_path, resolveByPaths_duplicate⟩

/-- Witness for C6's theorem: the same path twice against a single
working-tree record. -/
theorem resolveByPaths_order_and_duplicate_witness :
    (resolveByPaths "/r" ["/r/a.ts", "/r/a.ts"] []
        [{ uriPath := "/r/a.ts", status := GitStatus.MODIFIED }]).1
      = [FileChange.ofChange { uriPath := "/r/a.ts", status := GitStatus.MODIFIED } "/r",
         FileChange.ofPath "/r/a.ts" "/r" none] :=
  resolveByPaths_order_and_duplicate.2 "/r" "/r/a.ts" []
    [{ uriPath := "/r/a.ts", status := GitStatus.MODIFIED }]
    { uriPath := "/r/a.ts", status := GitStatus.MODIFIED } (by decide)

/-- C3 (confirmed): for every `FileChange` sequence with pairwise
distinct, newline-free relative paths (satisfying the data-model
invariant that a relative path does not begin with a slash),
`generateMessage` evaluates to: the empty string on an empty input; the
single line `"<label> <relativePath>"` with no title on a one-element
input; and on `n > 1` elements a string of exactly `n + 2`
newline-separated lines — a summary title, an empty separator line, then
one `"<label> <relativePath>"` line per file in input order. -/
theorem generateMessage_line_structure (fcs : List FileChange)
    (hdist : fcs.Pairwise (fun a b => a.relativePath ≠ b.relativePath))
    (hnl : ∀ fc ∈ fcs, noNL fc.relativePath)
    (hna : ∀ fc ∈ fcs, NonAbs fc.relativePath) :
    ∃ s, GMEval fcs s
      ∧ (fcs = [] → s = "")
      ∧ (∀ fc, fcs = [fc] → s = statusToString fc.status ++ " " ++ fc.relativePath)
      ∧ (1 < fcs.length → ∃ t, linesOf s = t :: "" :: fcs.map gmLine
          ∧ (linesOf s).length = fcs.length + 2) := by
  have hinit_na : NonAbsOpt (gmInit fcs).commonPath := by
    cases fcs with
    | nil => trivial
    | cons fc rest => exact hna fc (by simp)
  have hinit_nl : noNLOpt (gmInit fcs).commonPath := by
    cases fcs with
    | nil => trivial
    | cons fc rest => exact hnl fc (by simp)
  obtain ⟨n, st', hfold, _⟩ := gmFoldAux_term fcs (gmInit fcs) hna hinit_na
  have hlines : st'.lines = fcs.map gmLine := by
    simpa using gmFoldAux_lines hfold
  refine ⟨_, ⟨n, generateMessage_eq hfold⟩, ?_, ?_, ?_⟩
  · intro heq
    subst heq
    rw [if_neg (by simp)]
    rw [hlines]
    rfl
  · intro fc heq
    subst heq
    rw [if_neg (by simp)]
    rw [hlines]
    rfl
  · intro hlen
    rw [if_pos hlen, hlines]
    have hnl_list : ∀ x ∈ gmSummary st'.commonStatus st'.commonPath fcs.length
        :: "" :: fcs.map gmLine, noNL x := by
      intro x hx
      rcases List.mem_cons.1 hx with rfl | hx1
      · exact noNL_gmSummary (gmFoldAux_cp_noNL hfold hnl hinit_nl)
      · rcases List.mem_cons.1 hx1 with rfl | hx2
        · unfold noNL
          decide
        · obtain ⟨fc, hfc, rfl⟩ := List.mem_map.1 hx2
          exact noNL_gmLine (hnl fc hfc)
    refine ⟨gmSummary st'.commonStatus st'.commonPath fcs.length, ?_, ?_⟩
    · exact linesOf_joinSep (by simp) hnl_list
    · rw [linesOf_joinSep (by simp) hnl_list]
      simp

/-- Witness for C3's theorem at the two-file scenario input. -/
theorem generateMessage_line_structure_witness :
    ∃ s, GMEval [fcAx, fcBy] s
      ∧ ([fcAx, fcBy] = [] → s = "")
      ∧ (∀ fc, [fcAx, fcBy] = [fc] → s = statusToString fc.status ++ " " ++ fc.relativePath)
      ∧ (1 < ([fcAx, fcBy] : List FileChange).length →
          ∃ t, linesOf s = t :: "" :: [fcAx, fcBy].map gmLine
          ∧ (linesOf s).length = ([fcAx, fcBy] : List FileChange).length + 2) :=
  generateMessage_line_structure [fcAx, fcBy] (by decide) (by decide) (by decide)

/-- C4 (confirmed): for more than one `FileChange` (relative paths
satisfying the non-absolute data-model invariant), the action word of
the summary title is the first file's action label when every file's
status equals the first's, and the `"Update"` fallback the moment any
status differs (the internal accumulator is a one-way latch that never
recovers); the per-status labels are `INDEX_ADDED`/`UNTRACKED → "Add"`,
`INDEX_DELETED`/`DELETED → "Delete"`, `INDEX_RENAMED → "Rename"`,
`INDEX_COPIED → "Copy"`, anything else (including an absent status)
`→ "Update"`. -/
theorem generateMessage_summary_action (fc : FileChange) (rest : List FileChange)
    (hrest : rest ≠ [])
    (hna : ∀ x ∈ fc :: rest, NonAbs x.relativePath) :
    (∃ s F, GMEval (fc :: rest) s
      ∧ s = joinSep "\n"
          (((if ∀ x ∈ fc :: rest, x.status = fc.status then statusToString fc.status
             else "Update")
            ++ " " ++ toString (fc :: rest).length ++ " files" ++ F)
           :: "" :: (fc :: rest).map gmLine))
    ∧ statusToString (some GitStatus.INDEX_ADDED) = "Add"
    ∧ statusToString (some GitStatus.UNTRACKED) = "Add"
    ∧ statusToString (some GitStatus.INDEX_DELETED) = "Delete"
    ∧ statusToString (some GitStatus.DELETED) = "Delete"
    ∧ statusToString (some GitStatus.INDEX_RENAMED) = "Rename"
    ∧ statusToString (some GitStatus.INDEX_COPIED) = "Copy"
    ∧ statusToString (some GitStatus.MODIFIED) = "Update"
    ∧ statusToString none = "Update" := by
  refine ⟨?_, rfl, rfl, rfl, rfl, rfl, rfl, rfl, rfl⟩
  obtain ⟨n, st', hfold, _⟩ := gmFoldAux_term (fc :: rest) (gmInit (fc :: rest)) hna
    (hna fc (by simp))
  have hlines : st'.lines = (fc :: rest).map gmLine := by
    simpa using gmFoldAux_lines hfold
  have hlen : (fc :: rest).length > 1 := by
    cases rest with
    | nil => exact absurd rfl hrest
    | cons b bs => simp
  have hmsg := generateMessage_eq hfold
  rw [if_pos hlen, hlines] at hmsg
  have hcs : statusToString st'.commonStatus
      = if ∀ x ∈ fc :: rest, x.status = fc.status then statusToString fc.status
        else "Update" := by
    have h1 : st'.commonStatus
        = List.foldl csStep fc.status ((fc :: rest).map FileChange.status) :=
      gmFoldAux_status hfold
    rw [h1, summary_action_eq]
    have hiff : (∀ s ∈ (fc :: rest).map FileChange.status, s = fc.status)
        ↔ (∀ x ∈ fc :: rest, x.status = fc.status) := by
      constructor
      · intro h x hx
        exact h x.status (List.mem_map_of_mem _ hx)
      · intro h s hs
        obtain ⟨x, hx, rfl⟩ := List.mem_map.1 hs
        exact h x hx
    by_cases hall : ∀ x ∈ fc :: rest, x.status = fc.status
    · rw [if_pos (hiff.2 hall), if_pos hall]
    · rw [if_neg (fun h2 => hall (hiff.1 h2)), if_neg hall]
  have hsum : gmSummary st'.commonStatus st'.commonPath (fc :: rest).length
      = (if ∀ x ∈ fc :: rest, x.status = fc.status then statusToString fc.status
         else "Update")
        ++ " " ++ toString (fc :: rest).length ++ " files"
        ++ (match st'.commonPath with
            | some p => if p ≠ "" then " from " ++ p else ""
            | none => "") := by
    unfold gmSummary
    rw [hcs]
  rw [hsum] at hmsg
  exact ⟨_, _, ⟨n, hmsg⟩, rfl⟩

/-- Witness for C4's theorem at the two-file scenario input. -/
theorem generateMessage_summary_action_witness :
    (∃ s F, GMEval [fcAx, fcBy] s
      ∧ s = joinSep "\n"
          (((if ∀ x ∈ [fcAx, fcBy], x.status = fcAx.status then statusToString fcAx.status
             else "Update")
            ++ " " ++ toString ([fcAx, fcBy] : List FileChange).length ++ " files" ++ F)
           :: "" :: [fcAx, fcBy].map gmLine))
    ∧ statusToString (some GitStatus.INDEX_ADDED) = "Add"
    ∧ statusToString (some GitStatus.UNTRACKED) = "Add"
    ∧ statusToString (some GitStatus.INDEX_DELETED) = "Delete"
    ∧ statusToString (some GitStatus.DELETED) = "Delete"
    ∧ statusToString (some GitStatus.INDEX_RENAMED) = "Rename"
    ∧ statusToString (some GitStatus.INDEX_COPIED) = "Copy"
    ∧ statusToString (some GitStatus.MODIFIED) = "Update"
    ∧ statusToString none = "Update" :=
  generateMessage_summary_action fcAx [fcBy] (by decide) (by decide)

/-- C5 (confirmed): the summary's common path prefix follows the
truncate-to-parent-directory procedure: every found prefix is a
directory-chain element (an iterate of `` `${path.dirname(·)}/` ``) of
both compared strings; once the accumulator collapses to `undefined` it
stays `undefined` for the rest of the fold; a collapsed accumulator
produces a title with no `" from"` clause; and for the files `a/x.ts`
(added) and `b/y.ts` (deleted) the generated message is exactly
`"Update 2 files"` followed by the blank separator and the two per-file
lines. -/
theorem commonPrefix_latch_and_scenario :
    GMEval [fcAx, fcBy] "Update 2 files\n\nAdd a/x.ts\nDelete b/y.ts"
    ∧ (∀ (n : Nat) (fcs : List FileChange) (st st' : GMState),
        st.commonPath = none → gmFoldAux n fcs st = some st' → st'.commonPath = none)
    ∧ (∀ (cs : Option GitStatus) (len : Nat), gmSummary cs none len
        = statusToString cs ++ " " ++ toString len ++ " files")
    ∧ (∀ (n : Nat) (a b p : String), findLongestPathPrefixFuel n a b = some (some p) →
        (∃ i, Nat.iterate dirnameSlash i a = p) ∧ (∃ j, Nat.iterate dirnameSlash j b = p)) := by
  refine ⟨⟨20, by decide⟩, ?_, ?_, ?_⟩
  · intro n fcs st st' h1 h2
    exact gmFoldAux_cp_none h2 h1
  · intro cs len
    show statusToString cs ++ " " ++ toString len ++ " files" ++ "" = _
    rw [stringAppend_empty]
  · intro n a b p h
    exact flpp_result_spec n a b p h

/-- Witness for C5's theorem: the chain-membership component at a
concrete terminating pair. -/
theorem commonPrefix_latch_and_scenario_witness :
    (∃ i, Nat.iterate dirnameSlash i "a/b" = "a/")
    ∧ (∃ j, Nat.iterate dirnameSlash j "a/c" = "a/") :=
  commonPrefix_latch_and_scenario.2.2.2 10 "a/b" "a/c" "a/" (by decide)
